import Mathlib

/-!
Shallow embedding of the RadialAutomata generation engine
(src/radial.js, constant-interval variant, and src/unnamed/part_000,
variable-schedule variant), together with proofs of the specification
claims about the ring-topology builder, the cell-state generator, the
rule engine, the expansion-interval planner and the input parsing.

Cell values are JS numbers holding small naturals (0/1 bits in every
reachable state), modelled as `Nat`; JS array reads `a[i]` that are
in bounds in every use proved about are modelled with `List.getD` with
default 0.
-/

namespace RadialAutomata

/-! ### Rule engine (function `rules`, src/radial.js lines 158-162) -/

/-- JS `parseInt(s, 2)` applied to a string of binary digit characters:
fold base 2 over the digit values.  This is exact for the strings the
engine builds, whose characters are the decimal digits of 0/1 cells. -/
def parseIntBase2 (cs : List Char) : Nat :=
  cs.foldl (fun acc c => 2 * acc + (c.toNat - 48)) 0

/-- `rules(a, b, c)`: build the string `"" + a + b + c` out of the decimal
digit characters of the three cell values, parse it as a binary number
`index`, and return `ruleset[7 - index]` (src/radial.js lines 158-162,
identical in src/unnamed/part_000 lines 230-234). -/
def rules (ruleset : List Nat) (a b c : Nat) : Nat :=
  ruleset.getD
    (7 - parseIntBase2 (Nat.toDigits 10 a ++ Nat.toDigits 10 b ++ Nat.toDigits 10 c)) 0

/-! ### Ring topology builder (loop body of `initializeSimulation`,
src/radial.js lines 44-58, src/unnamed/part_000 lines 116-131) -/

/-- The expansion mask of a freshly allocated ring: position `i` is an
expansion cell iff `i % (interval + 1) === interval` (the `fill(false)`
array updated by the marking loop). -/
def buildExpansionMask (newCount interval : Nat) : List Bool :=
  (List.range newCount).map (fun i => i % (interval + 1) == interval)

/-- One iteration of the pre-calculation loop: from the previous ring's
cell count and the transition interval, the next ring's cell count
(`prevCount + floor(prevCount / interval)`) and its expansion mask. -/
def buildRingTopology (prevCount interval : Nat) : Nat × List Bool :=
  let expansionCount := prevCount / interval
  let newCount := prevCount + expansionCount
  (newCount, buildExpansionMask newCount interval)

/-! ### Arithmetic helpers for the mask layout -/

theorem succ_mod_succ_eq_zero_iff (k j : Nat) :
    (j + 1) % (k + 1) = 0 ↔ j % (k + 1) = k := by
  have hlt : j % (k + 1) < k + 1 := Nat.mod_lt _ (Nat.succ_pos k)
  have hdm : (k + 1) * (j / (k + 1)) + j % (k + 1) = j := Nat.div_add_mod j (k + 1)
  constructor
  · intro h
    by_contra hne
    have h1 : j % (k + 1) + 1 < k + 1 := by omega
    have h2 : j + 1 = (k + 1) * (j / (k + 1)) + (j % (k + 1) + 1) := by omega
    rw [h2, Nat.mul_add_mod, Nat.mod_eq_of_lt h1] at h
    omega
  · intro h
    have h2 : j + 1 = (k + 1) * (j / (k + 1) + 1) := by
      have h3 : (k + 1) * (j / (k + 1) + 1) = (k + 1) * (j / (k + 1)) + (k + 1) := by ring
      omega
    rw [h2]
    exact Nat.mul_mod_right _ _

theorem countP_range_expansion (k : Nat) :
    ∀ N, (List.range N).countP (fun i => i % (k + 1) == k) = N / (k + 1) := by
  intro N
  induction N with
  | zero => simp
  | succ n ih =>
    rw [List.range_succ, List.countP_append, ih, Nat.succ_div]
    by_cases h : n % (k + 1) = k
    · have hd : (k + 1) ∣ (n + 1) :=
        Nat.dvd_of_mod_eq_zero ((succ_mod_succ_eq_zero_iff k n).2 h)
      simp [List.countP_cons, h, hd]
    · have hd : ¬ (k + 1) ∣ (n + 1) := by
        intro hdvd
        exact h ((succ_mod_succ_eq_zero_iff k n).1 (Nat.mod_eq_zero_of_dvd hdvd))
      simp [List.countP_cons, h, hd]

theorem topology_div (p k : Nat) (hk : 1 ≤ k) :
    (p + p / k) / (k + 1) = p / k := by
  have hdm : k * (p / k) + p % k = p := Nat.div_add_mod p k
  have hmod : p % k < k + 1 := lt_of_lt_of_le (Nat.mod_lt p (by omega)) (by omega)
  have hrw : p + p / k = p % k + (k + 1) * (p / k) := by
    have h3 : (k + 1) * (p / k) = k * (p / k) + p / k := by ring
    omega
  rw [hrw, Nat.add_mul_div_left _ _ (by omega : 0 < k + 1), Nat.div_eq_of_lt hmod]
  omega

/-- Every Bool list splits its length between false and true counts. -/
theorem count_false_add_count_true (l : List Bool) :
    l.count false + l.count true = l.length := by
  induction l with
  | nil => simp
  | cons a l ih =>
    cases a <;> simp [List.count_cons] <;> omega

theorem countP_not_eq_length_sub {α : Type} (p : α → Bool) (l : List α) :
    l.countP (fun a => !(p a)) = l.length - l.countP p := by
  induction l with
  | nil => simp
  | cons a l ih =>
    have hle : l.countP p ≤ l.length := List.countP_le_length p
    rw [List.countP_cons, List.countP_cons]
    cases h : p a <;> simp [h, ih] <;> omega

theorem buildExpansionMask_length (N k : Nat) :
    (buildExpansionMask N k).length = N := by
  simp [buildExpansionMask]

theorem buildExpansionMask_getD (N k i : Nat) (hi : i < N) :
    (buildExpansionMask N k).getD i false = (i % (k + 1) == k) := by
  have hi' : i < ((List.range N).map (fun j => j % (k + 1) == k)).length := by
    simp [hi]
  rw [buildExpansionMask, List.getD_eq_getElem _ _ hi']
  simp

theorem buildExpansionMask_count_true (N k : Nat) :
    (buildExpansionMask N k).count true = N / (k + 1) := by
  rw [buildExpansionMask, List.count_eq_countP, List.countP_map]
  have hfun : ((fun x => x == true) ∘ fun i => i % (k + 1) == k)
      = fun i => i % (k + 1) == k := by
    funext i
    simp
  rw [hfun, countP_range_expansion]

theorem buildExpansionMask_count_false (N k : Nat) :
    (buildExpansionMask N k).count false = N - N / (k + 1) := by
  have h1 := count_false_add_count_true (buildExpansionMask N k)
  have h2 := buildExpansionMask_count_true N k
  have h3 := buildExpansionMask_length N k
  have h4 : N / (k + 1) ≤ N := Nat.div_le_self _ _
  omega

/-! ### C1: topology construction -/

/-- C1.  For every `prevCount ≥ 1` and `interval ≥ 1`, the ring-topology
construction yields `newCount = prevCount + floor(prevCount/interval)`,
produces a mask of length `newCount`, marks position `i` as an expansion
cell iff `i % (interval + 1) = interval`, and the mask contains exactly
`floor(prevCount/interval)` true entries. -/
theorem ring_topology_spec (p k : Nat) (hp : 1 ≤ p) (hk : 1 ≤ k) :
    (buildRingTopology p k).1 = p + p / k ∧
    (buildRingTopology p k).2.length = (buildRingTopology p k).1 ∧
    (∀ i, i < (buildRingTopology p k).1 →
      ((buildRingTopology p k).2.getD i false = true ↔ i % (k + 1) = k)) ∧
    (buildRingTopology p k).2.count true = p / k := by
  refine ⟨rfl, buildExpansionMask_length _ _, ?_, ?_⟩
  · intro i hi
    have hi2 : i < p + p / k := hi
    show (buildExpansionMask (p + p / k) k).getD i false = true ↔ i % (k + 1) = k
    rw [buildExpansionMask_getD _ _ _ hi2]
    simp
  · show (buildExpansionMask (p + p / k) k).count true = p / k
    rw [buildExpansionMask_count_true, topology_div p k hk]

/-- Witness for C1 at `prevCount = 8`, `interval = 4`
(the concrete scenario of spec section 8.6). -/
theorem ring_topology_spec_witness :
    (1 ≤ 8 ∧ 1 ≤ 4) ∧
    ((buildRingTopology 8 4).1 = 8 + 8 / 4 ∧
     (buildRingTopology 8 4).2.length = (buildRingTopology 8 4).1 ∧
     (∀ i, i < (buildRingTopology 8 4).1 →
       ((buildRingTopology 8 4).2.getD i false = true ↔ i % (4 + 1) = 4)) ∧
     (buildRingTopology 8 4).2.count true = 8 / 4) :=
  ⟨⟨by decide, by decide⟩, ring_topology_spec 8 4 (by decide) (by decide)⟩

/-! ### C3: rule engine complement indexing -/

/-- C3.  For bits `a b c` and every 8-entry ruleset, the rule engine
returns `ruleset[7 - idx]` with `idx = a*4 + b*2 + c`: the complemented
index, not the direct one. -/
theorem rules_complement_indexing (ruleset : List Nat) (a b c : Nat)
    (hlen : ruleset.length = 8) (ha : a ≤ 1) (hb : b ≤ 1) (hc : c ≤ 1) :
    rules ruleset a b c = ruleset.getD (7 - (a * 4 + b * 2 + c)) 0 := by
  interval_cases a <;> interval_cases b <;> interval_cases c <;> rfl

/-- Witness for C3 on the Rule-90 table at neighborhood 1,0,1. -/
theorem rules_complement_indexing_witness :
    ([0, 1, 0, 1, 1, 0, 1, 0] : List Nat).length = 8 ∧
    rules [0, 1, 0, 1, 1, 0, 1, 0] 1 0 1
      = ([0, 1, 0, 1, 1, 0, 1, 0] : List Nat).getD (7 - (1 * 4 + 0 * 2 + 1)) 0 :=
  ⟨by decide,
   rules_complement_indexing [0, 1, 0, 1, 1, 0, 1, 0] 1 0 1
     (by decide) (by decide) (by decide) (by decide)⟩

/-! ### Cell state generator (`generateNextRing`, src/radial.js lines
131-156, identical in src/unnamed/part_000 lines 203-228) -/

/-- `generateNextRing` walks the next ring's expansion mask carrying a
cursor `prevIndex` into the previous ring.  An expansion cell copies
`currentCells[prevIndex - 1]` (or the last cell of the previous ring
when the cursor is still 0) and leaves the cursor unchanged; a regular
cell applies the CA rule to the neighborhood around `prevIndex` with
circular indexing and advances the cursor.  The JS index expression
`(prevIndex - 1 + len) % len` is written `(prevIndex + len - 1) % len`,
the same integer for the nonnegative `prevIndex` involved. -/
def generateNextRing (currentCells ruleset : List Nat) :
    List Bool → Nat → List Nat
  | [], _ => []
  | e :: rest, prevIndex =>
    if e then
      (if 0 < prevIndex then currentCells.getD (prevIndex - 1) 0
       else currentCells.getD (currentCells.length - 1) 0)
        :: generateNextRing currentCells ruleset rest prevIndex
    else
      rules ruleset
          (currentCells.getD
            ((prevIndex + currentCells.length - 1) % currentCells.length) 0)
          (currentCells.getD prevIndex 0)
          (currentCells.getD ((prevIndex + 1) % currentCells.length) 0)
        :: generateNextRing currentCells ruleset rest (prevIndex + 1)

/-- The cursor value when the generator reaches position `i` starting
from cursor 0: the number of non-expansion cells strictly before `i`
(the cursor advances only on those). -/
def countFalseBefore (mask : List Bool) (i : Nat) : Nat :=
  (mask.take i).count false

theorem generateNextRing_cons_true (cur rs : List Nat) (rest : List Bool) (p0 : Nat) :
    generateNextRing cur rs (true :: rest) p0 =
      (if 0 < p0 then cur.getD (p0 - 1) 0 else cur.getD (cur.length - 1) 0)
        :: generateNextRing cur rs rest p0 := rfl

theorem generateNextRing_cons_false (cur rs : List Nat) (rest : List Bool) (p0 : Nat) :
    generateNextRing cur rs (false :: rest) p0 =
      rules rs (cur.getD ((p0 + cur.length - 1) % cur.length) 0)
          (cur.getD p0 0) (cur.getD ((p0 + 1) % cur.length) 0)
        :: generateNextRing cur rs rest (p0 + 1) := rfl

theorem generateNextRing_length (cur rs : List Nat) :
    ∀ (mask : List Bool) (p0 : Nat),
      (generateNextRing cur rs mask p0).length = mask.length := by
  intro mask
  induction mask with
  | nil => intro p0; rfl
  | cons e rest ih =>
    intro p0
    cases e
    · rw [generateNextRing_cons_false]
      simp [ih]
    · rw [generateNextRing_cons_true]
      simp [ih]

theorem countFalseBefore_zero (mask : List Bool) :
    countFalseBefore mask 0 = 0 := by
  simp [countFalseBefore]

theorem countFalseBefore_cons_succ (e : Bool) (rest : List Bool) (j : Nat) :
    countFalseBefore (e :: rest) (j + 1) =
      countFalseBefore rest j + (if e = false then 1 else 0) := by
  cases e <;> simp [countFalseBefore, List.count_cons]

/-- Simulation lemma: the cell the generator emits at position `i`, for
an arbitrary starting cursor `p0`, in terms of the cursor value
`p0 + countFalseBefore mask i`. -/
theorem generateNextRing_getD (cur rs : List Nat) :
    ∀ (mask : List Bool) (p0 i : Nat), i < mask.length →
      (generateNextRing cur rs mask p0).getD i 0 =
        if mask.getD i false = true then
          (if 0 < p0 + countFalseBefore mask i then
            cur.getD (p0 + countFalseBefore mask i - 1) 0
          else cur.getD (cur.length - 1) 0)
        else
          rules rs
            (cur.getD ((p0 + countFalseBefore mask i + cur.length - 1) % cur.length) 0)
            (cur.getD (p0 + countFalseBefore mask i) 0)
            (cur.getD ((p0 + countFalseBefore mask i + 1) % cur.length) 0) := by
  intro mask
  induction mask with
  | nil =>
    intro p0 i hi
    simp at hi
  | cons e rest ih =>
    intro p0 i hi
    cases i with
    | zero =>
      cases e
      · rw [generateNextRing_cons_false]
        simp [countFalseBefore_zero]
      · rw [generateNextRing_cons_true]
        simp [countFalseBefore_zero]
    | succ j =>
      have hj : j < rest.length := by simpa using hi
      cases e
      · rw [generateNextRing_cons_false, List.getD_cons_succ, ih (p0 + 1) j hj,
            countFalseBefore_cons_succ]
        simp only [List.getD_cons_succ]
        norm_num
        rw [show p0 + (countFalseBefore rest j + 1) = p0 + 1 + countFalseBefore rest j
          from by omega]
      · rw [generateNextRing_cons_true, List.getD_cons_succ, ih p0 j hj,
            countFalseBefore_cons_succ]
        simp only [List.getD_cons_succ]
        norm_num

theorem countFalseBefore_le_count (mask : List Bool) (i : Nat) :
    countFalseBefore mask i ≤ mask.count false := by
  induction mask generalizing i with
  | nil => simp [countFalseBefore]
  | cons e rest ih =>
    cases i with
    | zero => simp [countFalseBefore_zero]
    | succ j =>
      rw [countFalseBefore_cons_succ, List.count_cons]
      have h := ih j
      cases e <;> simp <;> omega

theorem countFalseBefore_lt_count (mask : List Bool) (i : Nat)
    (hi : i < mask.length) (hfalse : mask.getD i false = false) :
    countFalseBefore mask i < mask.count false := by
  induction mask generalizing i with
  | nil => simp at hi
  | cons e rest ih =>
    cases i with
    | zero =>
      have he : e = false := by simpa using hfalse
      subst he
      rw [countFalseBefore_zero, List.count_cons]
      simp
    | succ j =>
      have hj : j < rest.length := by simpa using hi
      have hgd : rest.getD j false = false := by simpa using hfalse
      have h := ih j hj hgd
      rw [countFalseBefore_cons_succ, List.count_cons]
      cases e <;> simp <;> omega

theorem getD_mem_of_lt (l : List Nat) (i : Nat) (h : i < l.length) :
    l.getD i 0 ∈ l := by
  rw [List.getD_eq_getElem _ _ h]
  exact List.getElem_mem h

/-! ### C2: expansion cells copy from the previous ring -/

/-- C2.  For a well-formed mask (no more rule-driven cells than the
previous ring has) over a non-empty previous ring: the expansion cell at
position `i` receives `currentCells[prevIndex - 1]` when the cursor
`prevIndex = countFalseBefore mask i` is positive and the last cell of
the previous ring when it is 0 (the cursor advances only on
non-expansion cells, so no rule is applied at `i`), and consequently the
emitted value is one present in the previous ring. -/
theorem expansion_cells_copy_previous (cur rs : List Nat) (mask : List Bool)
    (hne : cur ≠ []) (hwf : mask.count false ≤ cur.length) :
    ∀ i, i < mask.length → mask.getD i false = true →
      ((generateNextRing cur rs mask 0).getD i 0 =
        if 0 < countFalseBefore mask i then
          cur.getD (countFalseBefore mask i - 1) 0
        else cur.getD (cur.length - 1) 0) ∧
      (generateNextRing cur rs mask 0).getD i 0 ∈ cur := by
  intro i hi htrue
  have hmain := generateNextRing_getD cur rs mask 0 i hi
  rw [htrue] at hmain
  simp only [if_pos rfl, Nat.zero_add] at hmain
  refine ⟨hmain, ?_⟩
  rw [hmain]
  have hlen : 0 < cur.length := List.length_pos.2 hne
  by_cases h0 : 0 < countFalseBefore mask i
  · rw [if_pos h0]
    apply getD_mem_of_lt
    have h1 := countFalseBefore_le_count mask i
    omega
  · rw [if_neg h0]
    apply getD_mem_of_lt
    omega

/-- Witness for C2: previous ring `[1, 0]`, mask `[false, true]`,
expansion cell at position 1. -/
theorem expansion_cells_copy_previous_witness :
    (([1, 0] : List Nat) ≠ [] ∧
      ([false, true] : List Bool).count false ≤ ([1, 0] : List Nat).length ∧
      1 < ([false, true] : List Bool).length ∧
      ([false, true] : List Bool).getD 1 false = true) ∧
    ((generateNextRing [1, 0] [0, 1, 0, 1, 1, 0, 1, 0] [false, true] 0).getD 1 0 =
        if 0 < countFalseBefore [false, true] 1 then
          ([1, 0] : List Nat).getD (countFalseBefore [false, true] 1 - 1) 0
        else ([1, 0] : List Nat).getD (([1, 0] : List Nat).length - 1) 0) ∧
      (generateNextRing [1, 0] [0, 1, 0, 1, 1, 0, 1, 0] [false, true] 0).getD 1 0
        ∈ ([1, 0] : List Nat) :=
  ⟨⟨by decide, by decide, by decide, by decide⟩,
   expansion_cells_copy_previous [1, 0] [0, 1, 0, 1, 1, 0, 1, 0] [false, true]
     (by decide) (by decide) 1 (by decide) (by decide)⟩

/-! ### C10: topology masks keep the generator cursor in bounds -/

theorem countFalseBefore_buildExpansionMask (N k i : Nat) (hi : i ≤ N) :
    countFalseBefore (buildExpansionMask N k) i = i - i / (k + 1) := by
  rw [countFalseBefore, buildExpansionMask, ← List.map_take, List.take_range,
    Nat.min_eq_left hi, List.count_eq_countP, List.countP_map]
  have hfun : ((fun x => x == false) ∘ fun j => j % (k + 1) == k)
      = fun j => !(j % (k + 1) == k) := by
    funext j
    simp
  rw [hfun, countP_not_eq_length_sub, List.length_range, countP_range_expansion]

/-- Position arithmetic at an expansion cell of a topology mask: the
cursor there is positive and at most the previous count. -/
theorem expansion_cursor_bounds (p k i : Nat) (hk : 1 ≤ k)
    (hi : i < p + p / k) (hmod : i % (k + 1) = k) :
    0 < i - i / (k + 1) ∧ i - i / (k + 1) ≤ p := by
  have hdm1 : (k + 1) * (i / (k + 1)) + k = i := by
    have h := Nat.div_add_mod i (k + 1)
    omega
  have hdm2 : k * (p / k) + p % k = p := Nat.div_add_mod p k
  have hr : p % k < k := Nat.mod_lt p (by omega)
  have e1 : (k + 1) * (i / (k + 1)) = k * (i / (k + 1)) + i / (k + 1) := by ring
  have e2 : (k + 1) * (p / k) = k * (p / k) + p / k := by ring
  have hformula : i - i / (k + 1) = (i / (k + 1) + 1) * k := by
    have e3 : (i / (k + 1) + 1) * k = k * (i / (k + 1)) + k := by ring
    omega
  have ht : i / (k + 1) < p / k := by
    by_contra hcon
    have hge : p / k ≤ i / (k + 1) := by omega
    have hmul : (k + 1) * (p / k) ≤ (k + 1) * (i / (k + 1)) :=
      Nat.mul_le_mul_left _ hge
    omega
  constructor
  · rw [hformula]
    exact Nat.mul_pos (Nat.succ_pos _) hk
  · rw [hformula]
    have hle : i / (k + 1) + 1 ≤ p / k := ht
    calc (i / (k + 1) + 1) * k ≤ (p / k) * k := Nat.mul_le_mul_right k hle
      _ = k * (p / k) := by ring
      _ ≤ p := by omega

/-- C10.  For the expansion mask built by the topology construction with
`interval ≥ 1` over a non-empty previous ring: position 0 is never an
expansion cell; the mask has exactly `prevCount` non-expansion cells, so
the cursor ends at exactly `prevCount`; at every expansion cell the
cursor is strictly positive (the wrap-to-last fallback branch is never
taken, and the emitted value reads `currentCells[cursor - 1]`, in
bounds); and at every rule cell the cursor reads in bounds. -/
theorem topology_mask_cursor_safe (cur rs : List Nat) (k : Nat)
    (hk : 1 ≤ k) (hne : 1 ≤ cur.length) :
    ((buildRingTopology cur.length k).2.getD 0 false = false) ∧
    ((buildRingTopology cur.length k).2.count false = cur.length) ∧
    (∀ i, i < (buildRingTopology cur.length k).1 →
      (buildRingTopology cur.length k).2.getD i false = true →
        0 < countFalseBefore (buildRingTopology cur.length k).2 i ∧
        countFalseBefore (buildRingTopology cur.length k).2 i - 1 < cur.length ∧
        (generateNextRing cur rs (buildRingTopology cur.length k).2 0).getD i 0
          = cur.getD (countFalseBefore (buildRingTopology cur.length k).2 i - 1) 0) ∧
    (∀ i, i < (buildRingTopology cur.length k).1 →
      (buildRingTopology cur.length k).2.getD i false = false →
        countFalseBefore (buildRingTopology cur.length k).2 i < cur.length) := by
  have hN : (buildRingTopology cur.length k).1 = cur.length + cur.length / k := rfl
  have hmask : (buildRingTopology cur.length k).2
      = buildExpansionMask (cur.length + cur.length / k) k := rfl
  have hNdiv : (cur.length + cur.length / k) / (k + 1) = cur.length / k :=
    topology_div cur.length k hk
  have hdivle := Nat.div_le_self cur.length k
  have hcount : (buildRingTopology cur.length k).2.count false = cur.length := by
    rw [hmask, buildExpansionMask_count_false, hNdiv]
    omega
  have hlen : (buildRingTopology cur.length k).2.length
      = cur.length + cur.length / k := by
    rw [hmask, buildExpansionMask_length]
  refine ⟨?_, hcount, ?_, ?_⟩
  · rw [hmask,
      buildExpansionMask_getD _ _ _
        (Nat.lt_of_lt_of_le hne (Nat.le_add_right _ _)
          : 0 < cur.length + cur.length / k)]
    have hne0 : ¬ (0 % (k + 1) = k) := by
      rw [Nat.zero_mod]
      omega
    simpa using hne0
  · intro i hi htrue
    rw [hN] at hi
    have hmod : i % (k + 1) = k := by
      rw [hmask, buildExpansionMask_getD _ _ _ hi] at htrue
      simpa using htrue
    have hcfb : countFalseBefore (buildRingTopology cur.length k).2 i
        = i - i / (k + 1) := by
      rw [hmask, countFalseBefore_buildExpansionMask _ _ _ (by omega)]
    have hbounds := expansion_cursor_bounds cur.length k i hk hi hmod
    obtain ⟨hb1, hb2⟩ := hbounds
    have hdivlt := Nat.div_le_self i (k + 1)
    refine ⟨by omega, by omega, ?_⟩
    have hget := generateNextRing_getD cur rs (buildRingTopology cur.length k).2 0 i
      (by omega)
    rw [hget, htrue, if_pos (rfl : (true : Bool) = true), Nat.zero_add,
      if_pos (by omega : 0 < countFalseBefore (buildRingTopology cur.length k).2 i)]
  · intro i hi hfalse
    rw [hN] at hi
    have hlt := countFalseBefore_lt_count (buildRingTopology cur.length k).2 i
      (by omega) hfalse
    omega

/-- Witness for C10: previous ring `[1, 0, 1]`, interval 3. -/
theorem topology_mask_cursor_safe_witness :
    (1 ≤ 3 ∧ 1 ≤ ([1, 0, 1] : List Nat).length) ∧
    (((buildRingTopology ([1, 0, 1] : List Nat).length 3).2.getD 0 false = false) ∧
     ((buildRingTopology ([1, 0, 1] : List Nat).length 3).2.count false
        = ([1, 0, 1] : List Nat).length) ∧
     (∀ i, i < (buildRingTopology ([1, 0, 1] : List Nat).length 3).1 →
       (buildRingTopology ([1, 0, 1] : List Nat).length 3).2.getD i false = true →
         0 < countFalseBefore (buildRingTopology ([1, 0, 1] : List Nat).length 3).2 i ∧
         countFalseBefore (buildRingTopology ([1, 0, 1] : List Nat).length 3).2 i - 1
           < ([1, 0, 1] : List Nat).length ∧
         (generateNextRing [1, 0, 1] [0, 1, 0, 1, 1, 0, 1, 0]
             (buildRingTopology ([1, 0, 1] : List Nat).length 3).2 0).getD i 0
           = ([1, 0, 1] : List Nat).getD
               (countFalseBefore
                 (buildRingTopology ([1, 0, 1] : List Nat).length 3).2 i - 1) 0) ∧
     (∀ i, i < (buildRingTopology ([1, 0, 1] : List Nat).length 3).1 →
       (buildRingTopology ([1, 0, 1] : List Nat).length 3).2.getD i false = false →
         countFalseBefore (buildRingTopology ([1, 0, 1] : List Nat).length 3).2 i
           < ([1, 0, 1] : List Nat).length)) :=
  ⟨⟨by decide, by decide⟩,
   topology_mask_cursor_safe [1, 0, 1] [0, 1, 0, 1, 1, 0, 1, 0] 3
     (by decide) (by decide)⟩

/-! ### Divisor helpers and the variable-schedule planner
(src/unnamed/part_000 lines 10-69) -/

/-- One iteration of the `getDivisors` loop at candidate `i`: when `i`
divides `n`, push `i` and, if distinct, `n / i`
(src/unnamed/part_000 lines 12-19). -/
def divisorStep (n i : Nat) : List Nat :=
  if n % i = 0 then (if i ≠ n / i then [i, n / i] else [i]) else []

/-- The `getDivisors(n)` loop over `i = 1 .. Math.sqrt(n)` before
sorting; for integers `i`, the JS bound `i <= Math.sqrt(n)` is
`i ≤ Nat.sqrt n`. -/
def getDivisorsLoop (n : Nat) : List Nat :=
  (List.range (Nat.sqrt n)).foldl (fun acc j => acc ++ divisorStep n (j + 1)) []

/-- `getDivisors(n)`: the collected divisors sorted ascending, as by
`divisors.sort((a, b) => a - b)` (src/unnamed/part_000 lines 10-21). -/
def getDivisors (n : Nat) : List Nat :=
  List.insertionSort (· ≤ ·) (getDivisorsLoop n)

/-- The `divisors.filter(d => d > 1)` list shared by
`getDefaultExpansionInterval` and `initializeExpansionIntervals`. -/
def validDivisorsOf (n : Nat) : List Nat :=
  (getDivisors n).filter (fun d => decide (1 < d))

/-- `getDefaultExpansionInterval(cellCount)` (src/unnamed/part_000
lines 25-42).  JS computes `Math.floor(validDivisors.length * 0.6)` in
double precision; for every representable length this equals
`length * 3 / 5` over the naturals, because the double nearest to 0.6
sits below it by only 2^-53/5, never enough to cross an integer
boundary in the product. -/
def getDefaultExpansionInterval (cellCount : Nat) : Nat :=
  let validDivisors := validDivisorsOf cellCount
  if validDivisors.length = 0 then cellCount
  else
    let targetIndex := validDivisors.length * 3 / 5
    let clamped := max 0 (min (validDivisors.length - 1) targetIndex)
    validDivisors.getD clamped 0

/-- The divisor fallback of `initializeExpansionIntervals` when the
incremented interval exceeds the cell count: the last entry of the
sorted divisors greater than 1, or the cell count itself when there is
none (src/unnamed/part_000 lines 57-61). -/
def scheduleFallback (currentCellCount : Nat) : Nat :=
  let validDivisors := validDivisorsOf currentCellCount
  if 0 < validDivisors.length then validDivisors.getD (validDivisors.length - 1) 0
  else currentCellCount

/-- The interval selected for transition `r` out of a ring with
`currentCellCount` cells: `2 + r`, replaced by the divisor fallback
when it exceeds the cell count (src/unnamed/part_000 lines 52-61). -/
def scheduleIntervalAt (currentCellCount r : Nat) : Nat :=
  if currentCellCount < 2 + r then scheduleFallback currentCellCount else 2 + r

/-- The loop of `initializeExpansionIntervals` with `steps` transitions
remaining (src/unnamed/part_000 lines 47-69). -/
def initializeExpansionIntervalsAux : Nat → Nat → Nat → List Nat
  | _, _, 0 => []
  | r, currentCellCount, steps + 1 =>
    scheduleIntervalAt currentCellCount r ::
      initializeExpansionIntervalsAux (r + 1)
        (currentCellCount + currentCellCount / scheduleIntervalAt currentCellCount r)
        steps

/-- `initializeExpansionIntervals()`: one interval per transition, for
`numRings - 1` transitions starting from `initialCellCount` cells. -/
def initializeExpansionIntervals (initialCellCount numRings : Nat) : List Nat :=
  initializeExpansionIntervalsAux 0 initialCellCount (numRings - 1)

/-- The cell count at the start of transition `idx` of the planner loop
begun at transition index `r` with `c` cells. -/
def scheduleCellCountFrom : Nat → Nat → Nat → Nat
  | _, c, 0 => c
  | r, c, idx + 1 =>
    scheduleCellCountFrom (r + 1) (c + c / scheduleIntervalAt c r) idx

theorem foldl_append_eq_flatMap (g : Nat → List Nat) :
    ∀ (l : List Nat) (acc : List Nat),
      l.foldl (fun a j => a ++ g j) acc = acc ++ l.flatMap g := by
  intro l
  induction l with
  | nil =>
    intro acc
    simp
  | cons j t ih =>
    intro acc
    rw [List.foldl_cons, ih, List.flatMap_cons, List.append_assoc]

theorem mem_getDivisorsLoop_iff (n x : Nat) :
    x ∈ getDivisorsLoop n ↔
      ∃ j ∈ List.range (Nat.sqrt n), x ∈ divisorStep n (j + 1) := by
  rw [getDivisorsLoop, foldl_append_eq_flatMap]
  simp [List.mem_flatMap]

theorem divisorStep_dvd (n i x : Nat) (hx : x ∈ divisorStep n i) : x ∣ n := by
  rw [divisorStep] at hx
  by_cases h : n % i = 0
  · rw [if_pos h] at hx
    have hdvd : i ∣ n := Nat.dvd_of_mod_eq_zero h
    by_cases h2 : i ≠ n / i
    · rw [if_pos h2] at hx
      simp at hx
      rcases hx with hx | hx
      · subst hx
        exact hdvd
      · subst hx
        exact Nat.div_dvd_of_dvd hdvd
    · rw [if_neg h2] at hx
      simp at hx
      subst hx
      exact hdvd
  · rw [if_neg h] at hx
    simp at hx

theorem mem_getDivisorsLoop_self (n : Nat) (hn : 1 ≤ n) :
    n ∈ getDivisorsLoop n := by
  rw [mem_getDivisorsLoop_iff]
  refine ⟨0, List.mem_range.2 (Nat.sqrt_pos.2 hn), ?_⟩
  rw [divisorStep, if_pos (Nat.mod_one n), Nat.div_one]
  by_cases h : (1 : Nat) ≠ n
  · rw [if_pos h]
    simp
  · rw [if_neg h]
    simp at h
    simp [h]

theorem mem_getDivisors_iff (n x : Nat) :
    x ∈ getDivisors n ↔ x ∈ getDivisorsLoop n :=
  (List.perm_insertionSort _ _).mem_iff

theorem getDivisors_dvd (n x : Nat) (hx : x ∈ getDivisors n) : x ∣ n :=
  divisorStep_dvd n _ x
    (((mem_getDivisorsLoop_iff n x).1 ((mem_getDivisors_iff n x).1 hx)).choose_spec.2)

theorem getDivisors_sorted (n : Nat) :
    List.Sorted (· ≤ ·) (getDivisors n) :=
  List.sorted_insertionSort _ _

theorem mem_validDivisorsOf_iff (n x : Nat) :
    x ∈ validDivisorsOf n ↔ x ∈ getDivisors n ∧ 1 < x := by
  rw [validDivisorsOf, List.mem_filter]
  simp

theorem validDivisorsOf_sorted (n : Nat) :
    List.Sorted (· ≤ ·) (validDivisorsOf n) :=
  List.Pairwise.filter _ (getDivisors_sorted n)

/-- In a sorted list, every member is at most the last element. -/
theorem sorted_le_last (l : List Nat) (hs : List.Sorted (· ≤ ·) l) :
    ∀ x ∈ l, x ≤ l.getD (l.length - 1) 0 := by
  induction l with
  | nil =>
    intro x hx
    simp at hx
  | cons a t ih =>
    intro x hx
    cases t with
    | nil =>
      simp at hx
      simp [hx]
    | cons b t2 =>
      have hs2 : List.Sorted (· ≤ ·) (b :: t2) := hs.of_cons
      have hidx : (a :: b :: t2).getD ((a :: b :: t2).length - 1) 0
          = (b :: t2).getD ((b :: t2).length - 1) 0 := by
        simp
      rcases List.mem_cons.1 hx with hx | hx
      · subst hx
        rw [hidx]
        exact List.rel_of_sorted_cons hs _
          (getD_mem_of_lt _ _ (by simp))
      · rw [hidx]
        exact ih hs2 x hx

/-- In a sorted list, entries are monotone in the index. -/
theorem sorted_getD_mono (l : List Nat) (hs : List.Sorted (· ≤ ·) l)
    (i j : Nat) (hij : i ≤ j) (hj : j < l.length) :
    l.getD i 0 ≤ l.getD j 0 := by
  rcases Nat.eq_or_lt_of_le hij with h | h
  · subst h
    exact le_refl _
  · have hi : i < l.length := lt_trans h hj
    rw [List.getD_eq_getElem _ _ hi, List.getD_eq_getElem _ _ hj]
    exact hs.rel_get_of_lt h

theorem scheduleFallback_eq_self (n : Nat) (hn : 1 ≤ n) :
    scheduleFallback n = n := by
  by_cases h1 : n = 1
  · subst h1
    decide
  · have h2 : 2 ≤ n := by omega
    have hmem : n ∈ validDivisorsOf n := by
      rw [mem_validDivisorsOf_iff, mem_getDivisors_iff]
      exact ⟨mem_getDivisorsLoop_self n hn, by omega⟩
    have hlen : 0 < (validDivisorsOf n).length :=
      List.length_pos.2 (List.ne_nil_of_mem hmem)
    rw [scheduleFallback, if_pos hlen]
    have hlast_mem : (validDivisorsOf n).getD ((validDivisorsOf n).length - 1) 0
        ∈ validDivisorsOf n := getD_mem_of_lt _ _ (by omega)
    have hle : (validDivisorsOf n).getD ((validDivisorsOf n).length - 1) 0 ≤ n := by
      have hdvd := getDivisors_dvd n _ ((mem_validDivisorsOf_iff n _).1 hlast_mem).1
      exact Nat.le_of_dvd (by omega) hdvd
    have hge := sorted_le_last _ (validDivisorsOf_sorted n) n hmem
    omega

theorem scheduleCellCountFrom_pos :
    ∀ (idx r c : Nat), 1 ≤ c → 1 ≤ scheduleCellCountFrom r c idx := by
  intro idx
  induction idx with
  | zero =>
    intro r c hc
    exact hc
  | succ j ih =>
    intro r c hc
    exact ih _ _ (le_trans hc (Nat.le_add_right _ _))

theorem initializeExpansionIntervalsAux_getD :
    ∀ (steps r c idx : Nat), idx < steps →
      (initializeExpansionIntervalsAux r c steps).getD idx 0
        = scheduleIntervalAt (scheduleCellCountFrom r c idx) (r + idx) := by
  intro steps
  induction steps with
  | zero =>
    intro r c idx h
    omega
  | succ s ih =>
    intro r c idx h
    cases idx with
    | zero =>
      rfl
    | succ j =>
      have hj : j < s := by omega
      show (initializeExpansionIntervalsAux (r + 1)
          (c + c / scheduleIntervalAt c r) s).getD j 0 = _
      rw [ih (r + 1) _ j hj,
        show r + (j + 1) = r + 1 + j from by omega]
      rfl

/-! ### C4: variable-schedule planner -/

/-- C4.  For `initialCellCount ≥ 1` and every transition index `idx`,
the planner picks `2 + idx`, except that when this exceeds the current
cell count it substitutes the divisor fallback; the fallback always
equals the current cell count, which for counts at least 2 is its own
largest divisor greater than 1 (and for count 1 is the count itself);
consequently the selected interval is at least 1 and never exceeds the
current cell count. -/
theorem variable_schedule_intervals (init R idx : Nat)
    (hinit : 1 ≤ init) (hidx : idx < R - 1) :
    (initializeExpansionIntervals init R).getD idx 0
        = (if scheduleCellCountFrom 0 init idx < 2 + idx
           then scheduleFallback (scheduleCellCountFrom 0 init idx)
           else 2 + idx) ∧
    scheduleFallback (scheduleCellCountFrom 0 init idx)
        = scheduleCellCountFrom 0 init idx ∧
    (2 ≤ scheduleCellCountFrom 0 init idx →
      scheduleFallback (scheduleCellCountFrom 0 init idx)
          ∣ scheduleCellCountFrom 0 init idx ∧
      1 < scheduleFallback (scheduleCellCountFrom 0 init idx) ∧
      ∀ d, d ∣ scheduleCellCountFrom 0 init idx → 1 < d →
        d ≤ scheduleFallback (scheduleCellCountFrom 0 init idx)) ∧
    1 ≤ (initializeExpansionIntervals init R).getD idx 0 ∧
    (initializeExpansionIntervals init R).getD idx 0
        ≤ scheduleCellCountFrom 0 init idx := by
  have hc : 1 ≤ scheduleCellCountFrom 0 init idx :=
    scheduleCellCountFrom_pos idx 0 init hinit
  have hfb : scheduleFallback (scheduleCellCountFrom 0 init idx)
      = scheduleCellCountFrom 0 init idx :=
    scheduleFallback_eq_self _ hc
  have hgd : (initializeExpansionIntervals init R).getD idx 0
      = scheduleIntervalAt (scheduleCellCountFrom 0 init idx) idx := by
    rw [initializeExpansionIntervals,
      initializeExpansionIntervalsAux_getD (R - 1) 0 init idx hidx,
      Nat.zero_add]
  refine ⟨by rw [hgd, scheduleIntervalAt], hfb, ?_, ?_, ?_⟩
  · intro h2
    refine ⟨by rw [hfb], by omega, ?_⟩
    intro d hdvd hd1
    rw [hfb]
    exact Nat.le_of_dvd (by omega) hdvd
  · rw [hgd, scheduleIntervalAt]
    split
    · omega
    · omega
  · rw [hgd, scheduleIntervalAt]
    split
    · omega
    · omega

/-- Witness for C4: `initialCellCount = 8`, `numRings = 5`, transition 1. -/
theorem variable_schedule_intervals_witness :
    (1 ≤ 8 ∧ 1 < 5 - 1) ∧
    ((initializeExpansionIntervals 8 5).getD 1 0
        = (if scheduleCellCountFrom 0 8 1 < 2 + 1
           then scheduleFallback (scheduleCellCountFrom 0 8 1)
           else 2 + 1) ∧
     scheduleFallback (scheduleCellCountFrom 0 8 1)
        = scheduleCellCountFrom 0 8 1 ∧
     (2 ≤ scheduleCellCountFrom 0 8 1 →
       scheduleFallback (scheduleCellCountFrom 0 8 1)
           ∣ scheduleCellCountFrom 0 8 1 ∧
       1 < scheduleFallback (scheduleCellCountFrom 0 8 1) ∧
       ∀ d, d ∣ scheduleCellCountFrom 0 8 1 → 1 < d →
         d ≤ scheduleFallback (scheduleCellCountFrom 0 8 1)) ∧
     1 ≤ (initializeExpansionIntervals 8 5).getD 1 0 ∧
     (initializeExpansionIntervals 8 5).getD 1 0
        ≤ scheduleCellCountFrom 0 8 1) :=
  ⟨⟨by decide, by decide⟩,
   variable_schedule_intervals 8 5 1 (by decide) (by decide)⟩

/-! ### C5: divisor-based default interval -/

/-- C5.  For `n ≥ 1`: `getDefaultExpansionInterval n` divides `n`;
when `n` is prime or 1 it is `n` itself; and when divisors greater
than 1 exist, twice the result is at least the sum of the two middle
entries of their sorted list, i.e. the result is at least their
median. -/
theorem default_interval_divisor_median (n : Nat) (hn : 1 ≤ n) :
    getDefaultExpansionInterval n ∣ n ∧
    (Nat.Prime n ∨ n = 1 → getDefaultExpansionInterval n = n) ∧
    (0 < (validDivisorsOf n).length →
      (validDivisorsOf n).getD (((validDivisorsOf n).length - 1) / 2) 0
        + (validDivisorsOf n).getD ((validDivisorsOf n).length / 2) 0
        ≤ 2 * getDefaultExpansionInterval n) := by
  by_cases h0 : (validDivisorsOf n).length = 0
  · refine ⟨?_, ?_, ?_⟩
    · rw [getDefaultExpansionInterval, if_pos h0]
    · intro _
      rw [getDefaultExpansionInterval, if_pos h0]
    · intro h
      omega
  · have hlen : 0 < (validDivisorsOf n).length := by omega
    have hval : getDefaultExpansionInterval n
        = (validDivisorsOf n).getD
            (max 0 (min ((validDivisorsOf n).length - 1)
              ((validDivisorsOf n).length * 3 / 5))) 0 := by
      rw [getDefaultExpansionInterval, if_neg h0]
    have hidxlt : max 0 (min ((validDivisorsOf n).length - 1)
        ((validDivisorsOf n).length * 3 / 5)) < (validDivisorsOf n).length := by
      omega
    have hmem : getDefaultExpansionInterval n ∈ validDivisorsOf n := by
      rw [hval]
      exact getD_mem_of_lt _ _ hidxlt
    have hprops := (mem_validDivisorsOf_iff n _).1 hmem
    refine ⟨getDivisors_dvd n _ hprops.1, ?_, ?_⟩
    · intro hpn
      rcases hpn with hp | h1
      · have hall : ∀ x ∈ validDivisorsOf n, x = n := by
          intro x hx
          have hx2 := (mem_validDivisorsOf_iff n x).1 hx
          have hdvd := getDivisors_dvd n x hx2.1
          rcases (Nat.Prime.eq_one_or_self_of_dvd hp x hdvd) with h | h
          · omega
          · exact h
        exact hall _ hmem
      · subst h1
        decide
    · intro _
      have hs := validDivisorsOf_sorted n
      have h1 : (validDivisorsOf n).getD (((validDivisorsOf n).length - 1) / 2) 0
          ≤ getDefaultExpansionInterval n := by
        rw [hval]
        exact sorted_getD_mono _ hs _ _ (by omega) hidxlt
      have h2 : (validDivisorsOf n).getD ((validDivisorsOf n).length / 2) 0
          ≤ getDefaultExpansionInterval n := by
        rw [hval]
        exact sorted_getD_mono _ hs _ _ (by omega) hidxlt
      omega

/-- Witness for C5 at `n = 12` (divisors greater than 1:
2, 3, 4, 6, 12). -/
theorem default_interval_divisor_median_witness :
    1 ≤ 12 ∧
    (getDefaultExpansionInterval 12 ∣ 12 ∧
     (Nat.Prime 12 ∨ 12 = 1 → getDefaultExpansionInterval 12 = 12) ∧
     (0 < (validDivisorsOf 12).length →
       (validDivisorsOf 12).getD (((validDivisorsOf 12).length - 1) / 2) 0
         + (validDivisorsOf 12).getD ((validDivisorsOf 12).length / 2) 0
         ≤ 2 * getDefaultExpansionInterval 12)) :=
  ⟨by decide, default_interval_divisor_median 12 (by decide)⟩

/-! ### Simulation state and initialization (src/radial.js lines 27-62,
constant-interval variant) -/

structure SimParams where
  initialCellCount : Nat
  numRings : Nat
  expansionInterval : Nat
  ruleset : List Nat
  initialPattern : List Nat

/-- The mutable globals of the sketch that a run reads and writes. -/
structure SimState where
  rings : List (List Nat)
  expansionMap : List (List Bool)
  currentRing : Nat

/-- Ring 0: `initialPattern.slice(0, initialCellCount)` followed by the
zero-padding loop (src/radial.js lines 36-40). -/
def initRing0 (pattern : List Nat) (count : Nat) : List Nat :=
  pattern.take count ++ List.replicate (count - (pattern.take count).length) 0

/-- The pre-calculation loop of `initializeSimulation` (src/radial.js
lines 44-58): sizes and expansion masks of rings `1 .. numRings - 1`,
all built with the constant interval. -/
def buildStructures (interval : Nat) : Nat → Nat → List (Nat × List Bool)
  | _, 0 => []
  | c, steps + 1 =>
    buildRingTopology c interval ::
      buildStructures interval (buildRingTopology c interval).1 steps

/-- `initializeSimulation()` (src/radial.js lines 27-62).  The incoming
state - the globals `rings`, `expansionMap`, `currentRing` left by any
previous run - is entirely overwritten: ring 0 receives the padded
initial pattern, the later rings are freshly allocated (JS
`new Array(n)` of undefined entries, modelled as zero-filled
placeholders that are fully overwritten before being read), and every
expansion mask is precomputed from topology alone. -/
def initializeSimulation (p : SimParams) (_prev : SimState) : SimState :=
  let structures := buildStructures p.expansionInterval p.initialCellCount
    (p.numRings - 1)
  { rings := initRing0 p.initialPattern p.initialCellCount ::
      structures.map (fun s => List.replicate s.1 0),
    expansionMap := List.replicate p.initialCellCount false ::
      structures.map (fun s => s.2),
    currentRing := 0 }

/-- The generation part of one `draw()` call (src/radial.js lines
123-128): while rings remain, fill ring `currentRing + 1` from ring
`currentRing`, then advance `currentRing`.  The JS guard
`currentRing < numRings - 1` over signed numbers is
`currentRing + 1 < numRings` for naturals. -/
def stepGeneration (p : SimParams) (s : SimState) : SimState :=
  let s1 :=
    if s.currentRing + 1 < p.numRings then
      let newRing := generateNextRing (s.rings.getD s.currentRing []) p.ruleset
        (s.expansionMap.getD (s.currentRing + 1) []) 0
      { s with rings := s.rings.set (s.currentRing + 1) newRing }
    else s
  { s1 with currentRing := s1.currentRing + 1 }

/-- `numRings` draw calls: the full animation of one run. -/
def runSteps (p : SimParams) : Nat → SimState → SimState
  | 0, s => s
  | n + 1, s => runSteps p n (stepGeneration p s)

/-- A complete run: `initializeSimulation` over whatever global state is
present, followed by all draw steps. -/
def completeRun (p : SimParams) (prev : SimState) : SimState :=
  runSteps p p.numRings (initializeSimulation p prev)

/-! ### The variable-schedule variant (src/unnamed/part_000 lines
94-135): its `initializeSimulation` reads the persistent global
`expansionIntervals` and only conditionally reinitializes it. -/

/-- The full set of globals of the part_000 sketch that a run reads and
writes: the five parameters (with `expansionIntervals` doubling as a
persistent mutable array that survives across runs) and the mutable
`rings`, `expansionMap`, `currentRing`. -/
structure VarSimState where
  initialCellCount : Nat
  numRings : Nat
  expansionIntervals : List Nat
  ruleset : List Nat
  initialPattern : List Nat
  rings : List (List Nat)
  expansionMap : List (List Bool)
  currentRing : Nat

/-- The conditional refill at the top of part_000's
`initializeSimulation` (lines 102-105): when the persistent
`expansionIntervals` is empty, it is recomputed by
`initializeExpansionIntervals()` from the current cell count and ring
number; otherwise the stored array is used unchanged. -/
def resolveExpansionIntervals (initialCellCount numRings : Nat)
    (ivs : List Nat) : List Nat :=
  if ivs.length = 0 then initializeExpansionIntervals initialCellCount numRings
  else ivs

/-- The pre-calculation loop of part_000's `initializeSimulation`
(lines 116-131): the transition out of the ring at index `r` uses
`expansionIntervals[r] || prevCount` - a missing entry (JS `undefined`,
modelled by the `getD` default 0) or a stored 0 is falsy and falls back
to `prevCount`. -/
def buildStructuresVar (ivs : List Nat) : Nat → Nat → Nat → List (Nat × List Bool)
  | _, _, 0 => []
  | r, c, steps + 1 =>
    let interval := if ivs.getD r 0 = 0 then c else ivs.getD r 0
    buildRingTopology c interval ::
      buildStructuresVar ivs (r + 1) (buildRingTopology c interval).1 steps

/-- part_000's `initializeSimulation()` (lines 94-135): conditionally
refill the persistent schedule, then overwrite `rings`, `expansionMap`
and `currentRing` exactly as in the constant variant, with the
per-transition interval coming from the resolved schedule. -/
def initializeSimulationVar (s : VarSimState) : VarSimState :=
  let ivs := resolveExpansionIntervals s.initialCellCount s.numRings
    s.expansionIntervals
  let structures := buildStructuresVar ivs 0 s.initialCellCount (s.numRings - 1)
  { s with
      expansionIntervals := ivs,
      rings := initRing0 s.initialPattern s.initialCellCount ::
        structures.map (fun u => List.replicate u.1 0),
      expansionMap := List.replicate s.initialCellCount false ::
        structures.map (fun u => u.2),
      currentRing := 0 }

/-- The generation part of one part_000 `draw()` call (lines 195-200),
identical to the constant variant but reading the globals carried in
`VarSimState`. -/
def stepGenerationVar (s : VarSimState) : VarSimState :=
  let s1 :=
    if s.currentRing + 1 < s.numRings then
      let newRing := generateNextRing (s.rings.getD s.currentRing []) s.ruleset
        (s.expansionMap.getD (s.currentRing + 1) []) 0
      { s with rings := s.rings.set (s.currentRing + 1) newRing }
    else s
  { s1 with currentRing := s1.currentRing + 1 }

def runStepsVar : Nat → VarSimState → VarSimState
  | 0, s => s
  | n + 1, s => runStepsVar n (stepGenerationVar s)

/-- A complete part_000 run over whatever globals are present. -/
def completeRunVar (s : VarSimState) : VarSimState :=
  runStepsVar s.numRings (initializeSimulationVar s)

theorem stepGenerationVar_fields (s : VarSimState) :
    (stepGenerationVar s).initialCellCount = s.initialCellCount ∧
    (stepGenerationVar s).numRings = s.numRings ∧
    (stepGenerationVar s).expansionIntervals = s.expansionIntervals ∧
    (stepGenerationVar s).ruleset = s.ruleset ∧
    (stepGenerationVar s).initialPattern = s.initialPattern ∧
    (stepGenerationVar s).expansionMap = s.expansionMap := by
  by_cases h : s.currentRing + 1 < s.numRings <;>
    simp [stepGenerationVar, h]

theorem runStepsVar_fields :
    ∀ (n : Nat) (s : VarSimState),
      (runStepsVar n s).initialCellCount = s.initialCellCount ∧
      (runStepsVar n s).numRings = s.numRings ∧
      (runStepsVar n s).expansionIntervals = s.expansionIntervals ∧
      (runStepsVar n s).ruleset = s.ruleset ∧
      (runStepsVar n s).initialPattern = s.initialPattern ∧
      (runStepsVar n s).expansionMap = s.expansionMap := by
  intro n
  induction n with
  | zero =>
    intro s
    exact ⟨rfl, rfl, rfl, rfl, rfl, rfl⟩
  | succ m ih =>
    intro s
    have hstep := stepGenerationVar_fields s
    have h := ih (stepGenerationVar s)
    exact ⟨h.1.trans hstep.1, h.2.1.trans hstep.2.1, h.2.2.1.trans hstep.2.2.1,
      h.2.2.2.1.trans hstep.2.2.2.1, h.2.2.2.2.1.trans hstep.2.2.2.2.1,
      h.2.2.2.2.2.trans hstep.2.2.2.2.2⟩

/-- Resolving the persistent schedule is idempotent: a second
initialization sees a schedule that is either the user's non-empty one
or the freshly computed defaults, and keeps it. -/
theorem resolveExpansionIntervals_idem (a b : Nat) (ivs : List Nat) :
    resolveExpansionIntervals a b (resolveExpansionIntervals a b ivs)
      = resolveExpansionIntervals a b ivs := by
  simp only [resolveExpansionIntervals]
  by_cases h : ivs.length = 0
  · rw [if_pos h]
    split <;> rfl
  · rw [if_neg h, if_neg h]

/-- `initializeSimulationVar` reads nothing but the five parameter
fields of the incoming globals. -/
theorem initializeSimulationVar_eq (s : VarSimState) :
    initializeSimulationVar s
      = initializeSimulationVar
          ⟨s.initialCellCount, s.numRings, s.expansionIntervals, s.ruleset,
            s.initialPattern, [], [], 0⟩ := rfl

theorem init_resolve_collapse (a b : Nat) (ivs rs pat : List Nat) :
    initializeSimulationVar
        ⟨a, b, resolveExpansionIntervals a b ivs, rs, pat, [], [], 0⟩
      = initializeSimulationVar ⟨a, b, ivs, rs, pat, [], [], 0⟩ := by
  simp only [initializeSimulationVar]
  rw [resolveExpansionIntervals_idem]

/-- Rerunning a complete part_000 run over the globals it left behind -
including the conditionally filled persistent `expansionIntervals` -
reproduces the exact same final state. -/
theorem completeRunVar_rerun (t : VarSimState) :
    completeRunVar (completeRunVar t) = completeRunVar t := by
  obtain ⟨ha, hb, hiv, hrs, hpat, hmap⟩ :=
    runStepsVar_fields t.numRings (initializeSimulationVar t)
  have ea : (completeRunVar t).initialCellCount = t.initialCellCount := ha
  have eb : (completeRunVar t).numRings = t.numRings := hb
  have eiv : (completeRunVar t).expansionIntervals
      = resolveExpansionIntervals t.initialCellCount t.numRings
          t.expansionIntervals := hiv
  have ers : (completeRunVar t).ruleset = t.ruleset := hrs
  have epat : (completeRunVar t).initialPattern = t.initialPattern := hpat
  have hinit : initializeSimulationVar (completeRunVar t)
      = initializeSimulationVar t := by
    rw [initializeSimulationVar_eq (completeRunVar t), ea, eb, eiv, ers, epat,
      init_resolve_collapse, ← initializeSimulationVar_eq t]
  show runStepsVar (completeRunVar t).numRings
      (initializeSimulationVar (completeRunVar t)) = completeRunVar t
  rw [eb, hinit]
  rfl

/-! ### C6: determinism of a complete run, both variants -/

/-- C6.  Generation depends on nothing but the parameters, in both
variants.  Constant-interval variant (src/radial.js): two complete runs
with the same parameters, started from arbitrary prior globals, agree
on `rings` and `expansionMap`.  Variable-schedule variant
(src/unnamed/part_000), where the parameter set includes the
per-transition `expansionIntervals` array: two complete runs from
global states that agree on the five parameter fields agree on `rings`
and `expansionMap`; and a rerun over the exact globals a first run left
behind - where `initializeSimulation` skips the conditional refill
because the persistent `expansionIntervals` is now non-empty -
reproduces the first run's `rings` and `expansionMap` bit for bit. -/
theorem complete_run_deterministic :
    (∀ (p : SimParams) (s1 s2 : SimState),
      (completeRun p s1).rings = (completeRun p s2).rings ∧
      (completeRun p s1).expansionMap = (completeRun p s2).expansionMap) ∧
    (∀ (t1 t2 : VarSimState),
      t1.initialCellCount = t2.initialCellCount →
      t1.numRings = t2.numRings →
      t1.expansionIntervals = t2.expansionIntervals →
      t1.ruleset = t2.ruleset →
      t1.initialPattern = t2.initialPattern →
      (completeRunVar t1).rings = (completeRunVar t2).rings ∧
      (completeRunVar t1).expansionMap = (completeRunVar t2).expansionMap) ∧
    (∀ t : VarSimState,
      (completeRunVar (completeRunVar t)).rings = (completeRunVar t).rings ∧
      (completeRunVar (completeRunVar t)).expansionMap
        = (completeRunVar t).expansionMap) := by
  refine ⟨fun p s1 s2 => ⟨rfl, rfl⟩, ?_, ?_⟩
  · intro t1 t2 h1 h2 h3 h4 h5
    obtain ⟨a1, b1, c1, d1, e1, r1, m1, g1⟩ := t1
    obtain ⟨a2, b2, c2, d2, e2, r2, m2, g2⟩ := t2
    have h1' : a1 = a2 := h1
    have h2' : b1 = b2 := h2
    have h3' : c1 = c2 := h3
    have h4' : d1 = d2 := h4
    have h5' : e1 = e2 := h5
    subst h1'
    subst h2'
    subst h3'
    subst h4'
    subst h5'
    exact ⟨rfl, rfl⟩
  · intro t
    rw [completeRunVar_rerun]
    exact ⟨rfl, rfl⟩

/-- Prior-run garbage state for the C6 witness: parameters 8 cells,
3 rings, empty persistent schedule (so the conditional refill fires),
with leftover `rings`, `expansionMap` and `currentRing`. -/
def sampleVarStateA : VarSimState :=
  ⟨8, 3, [], [0, 1, 0, 1, 1, 0, 1, 0], [1, 0, 1, 0, 1, 0, 1, 0],
    [[5]], [[true]], 9⟩

/-- Same parameters as `sampleVarStateA`, fresh mutable state. -/
def sampleVarStateB : VarSimState :=
  ⟨8, 3, [], [0, 1, 0, 1, 1, 0, 1, 0], [1, 0, 1, 0, 1, 0, 1, 0],
    [], [], 0⟩

/-- Witness for C6: both variants at concrete states, the schedule-mode
pair differing only in their leftover mutable state, plus the rerun
case over the first run's final globals. -/
theorem complete_run_deterministic_witness :
    ((completeRun ⟨8, 3, 4, [0, 1, 0, 1, 1, 0, 1, 0], [1, 0, 1, 0, 1, 0, 1, 0]⟩
          ⟨[[5]], [[true]], 9⟩).rings
        = (completeRun ⟨8, 3, 4, [0, 1, 0, 1, 1, 0, 1, 0], [1, 0, 1, 0, 1, 0, 1, 0]⟩
          ⟨[], [], 0⟩).rings) ∧
    ((completeRunVar sampleVarStateA).rings
        = (completeRunVar sampleVarStateB).rings ∧
      (completeRunVar sampleVarStateA).expansionMap
        = (completeRunVar sampleVarStateB).expansionMap) ∧
    ((completeRunVar (completeRunVar sampleVarStateA)).rings
        = (completeRunVar sampleVarStateA).rings ∧
      (completeRunVar (completeRunVar sampleVarStateA)).expansionMap
        = (completeRunVar sampleVarStateA).expansionMap) :=
  ⟨(complete_run_deterministic.1
      ⟨8, 3, 4, [0, 1, 0, 1, 1, 0, 1, 0], [1, 0, 1, 0, 1, 0, 1, 0]⟩
      ⟨[[5]], [[true]], 9⟩ ⟨[], [], 0⟩).1,
   complete_run_deterministic.2.1 sampleVarStateA sampleVarStateB
     rfl rfl rfl rfl rfl,
   complete_run_deterministic.2.2 sampleVarStateA⟩

/-! ### C7: constant-mode interval handling -/

/-- The pre-calculation loop with the JS failure mode made explicit:
with `interval = 0`, `floor(prevCount / 0)` is `Infinity` and
`new Array(Infinity)` throws a `RangeError`, modelled as `none`
(src/radial.js lines 44-50). -/
def buildStructuresChecked (interval : Nat) :
    Nat → Nat → Option (List (Nat × List Bool))
  | _, 0 => some []
  | c, steps + 1 =>
    if interval = 0 then none
    else
      match buildStructuresChecked interval (buildRingTopology c interval).1 steps with
      | none => none
      | some rest => some (buildRingTopology c interval :: rest)

/-- Modelled from the spec: the external configuration surface (the DOM
controls, which are not part of src/) constrains the constant
`expansionInterval` to a positive integer, so the value reaching the
engine satisfies `1 ≤ interval` (spec sections 6 and 7). -/
def intervalValidated (interval : Nat) : Prop := 1 ≤ interval

/-- `restartSimulation` reading the constant expansion interval
(src/radial.js line 186): the supplied value is stored as-is, with no
divisibility requirement against any ring count. -/
def restartAcceptInterval (supplied : Nat) (p : SimParams) : SimParams :=
  { p with expansionInterval := supplied }

/-- C7.  A validated interval (at least 1, with no requirement of
dividing any ring count) is accepted as-is by the restart path, and the
guarded topology pre-calculation never hits the division failure: for
every ring count and transition count it succeeds and agrees with the
unguarded construction. -/
theorem constant_interval_safe (p : SimParams) (iv : Nat)
    (hv : intervalValidated iv) :
    (restartAcceptInterval iv p).expansionInterval = iv ∧
    ∀ c steps,
      buildStructuresChecked (restartAcceptInterval iv p).expansionInterval c steps
        = some (buildStructures (restartAcceptInterval iv p).expansionInterval c steps) := by
  have hne : ¬ (iv = 0) := by
    have : 1 ≤ iv := hv
    omega
  refine ⟨rfl, ?_⟩
  intro c steps
  induction steps generalizing c with
  | zero => rfl
  | succ n ih =>
    have hiv : (restartAcceptInterval iv p).expansionInterval = iv := rfl
    rw [hiv] at ih
    show buildStructuresChecked iv c (n + 1) = some (buildStructures iv c (n + 1))
    rw [buildStructuresChecked, if_neg hne, ih (buildRingTopology c iv).1,
      buildStructures]

/-- Witness for C7: interval 3 (not a divisor of the 8-cell start). -/
theorem constant_interval_safe_witness :
    intervalValidated 3 ∧
    ((restartAcceptInterval 3
        (⟨8, 3, 5, [0, 1, 0, 1, 1, 0, 1, 0], [1, 0, 1, 0, 1, 0, 1, 0]⟩ :
          SimParams)).expansionInterval = 3 ∧
     ∀ c steps,
       buildStructuresChecked
           (restartAcceptInterval 3
             (⟨8, 3, 5, [0, 1, 0, 1, 1, 0, 1, 0], [1, 0, 1, 0, 1, 0, 1, 0]⟩ :
               SimParams)).expansionInterval c steps
         = some (buildStructures
             (restartAcceptInterval 3
               (⟨8, 3, 5, [0, 1, 0, 1, 1, 0, 1, 0], [1, 0, 1, 0, 1, 0, 1, 0]⟩ :
                 SimParams)).expansionInterval c steps)) :=
  ⟨(by omega : 1 ≤ 3),
   constant_interval_safe
     (⟨8, 3, 5, [0, 1, 0, 1, 1, 0, 1, 0], [1, 0, 1, 0, 1, 0, 1, 0]⟩ : SimParams)
     3 (by omega : 1 ≤ 3)⟩

/-! ### Restart input parsing (src/radial.js lines 182-209,
src/unnamed/part_000 lines 315-350) -/

/-- JS `parseInt` applied to a single character, as in
`rulesetStr.split('').map(bit => parseInt(bit))`: a decimal digit
parses to its value, anything else to NaN, modelled as `none`. -/
def jsParseIntChar (c : Char) : Option Nat :=
  if c.isDigit then some (c.toNat - 48) else none

/-- The ruleset update of `restartSimulation` (src/radial.js lines
191-195): a string of length exactly 8 replaces the ruleset wholesale,
any other length leaves the previous ruleset untouched. -/
def updateRuleset (rulesetStr : List Char) (ruleset : List (Option Nat)) :
    List (Option Nat) :=
  if rulesetStr.length = 8 then rulesetStr.map jsParseIntChar else ruleset

/-! ### C8: ruleset validation -/

/-- C8.  A ruleset string whose length is not exactly 8 is rejected
silently: the previously held ruleset is retained unchanged (and being
a total function, the update never throws and never applies a partial
ruleset); a string of length exactly 8 replaces the ruleset with the
parse of its characters. -/
theorem ruleset_update_all_or_nothing (cs : List Char) (old : List (Option Nat)) :
    (cs.length ≠ 8 → updateRuleset cs old = old) ∧
    (cs.length = 8 → updateRuleset cs old = cs.map jsParseIntChar) := by
  constructor
  · intro h
    rw [updateRuleset, if_neg h]
  · intro h
    rw [updateRuleset, if_pos h]

/-- Witness for C8: a 2-character string is ignored, an 8-character
string replaces the ruleset. -/
theorem ruleset_update_all_or_nothing_witness :
    ((['1', '0'] : List Char).length ≠ 8 ∧
      updateRuleset ['1', '0'] [some 0, some 1] = [some 0, some 1]) ∧
    ((['0', '1', '0', '1', '1', '0', '1', '0'] : List Char).length = 8 ∧
      updateRuleset ['0', '1', '0', '1', '1', '0', '1', '0'] [some 0]
        = (['0', '1', '0', '1', '1', '0', '1', '0'] : List Char).map jsParseIntChar) :=
  ⟨⟨by decide,
    (ruleset_update_all_or_nothing ['1', '0'] [some 0, some 1]).1 (by decide)⟩,
   ⟨by decide,
    (ruleset_update_all_or_nothing ['0', '1', '0', '1', '1', '0', '1', '0']
      [some 0]).2 (by decide)⟩⟩

/-! ### C9: initial-pattern parsing -/

/-- Whitespace characters removed by `String.prototype.trim` (the ones
relevant to the comma-separated pattern input). -/
def isJsSpace (c : Char) : Bool :=
  c == ' ' || c == '\t' || c == '\n' || c == '\r'

/-- `val.trim()`: drop leading and trailing whitespace. -/
def trimChars (cs : List Char) : List Char :=
  ((cs.dropWhile isJsSpace).reverse.dropWhile isJsSpace).reverse

/-- `patternStr.split(',')`, accumulator-style over the characters. -/
def splitOnCommaAux : List Char → List Char → List (List Char)
  | [], acc => [acc.reverse]
  | c :: rest, acc =>
    if c = ',' then acc.reverse :: splitOnCommaAux rest []
    else splitOnCommaAux rest (c :: acc)

def splitOnComma (cs : List Char) : List (List Char) :=
  splitOnCommaAux cs []

def isHexDigitJs (c : Char) : Bool :=
  c.isDigit || (decide ('a' ≤ c) && decide (c ≤ 'f'))
    || (decide ('A' ≤ c) && decide (c ≤ 'F'))

def hexDigitVal (c : Char) : Nat :=
  if c.isDigit then c.toNat - 48
  else if decide ('a' ≤ c) && decide (c ≤ 'f') then c.toNat - 87
  else c.toNat - 55

/-- JS `parseInt` magnitude parsing in base 10: the longest leading run
of decimal digits, NaN (`none`) when there is none; trailing junk is
ignored. -/
def parseDecimalJs (cs : List Char) : Option Nat :=
  let ds := cs.takeWhile Char.isDigit
  if ds.isEmpty then none
  else some (ds.foldl (fun acc c => 10 * acc + (c.toNat - 48)) 0)

/-- JS `parseInt` magnitude parsing including the `0x`/`0X` hexadecimal
prefix it recognizes when no radix is given. -/
def parseUnsignedJs (cs : List Char) : Option Nat :=
  match cs with
  | '0' :: x :: rest =>
    if x = 'x' ∨ x = 'X' then
      let ds := rest.takeWhile isHexDigitJs
      if ds.isEmpty then none
      else some (ds.foldl (fun acc c => 16 * acc + hexDigitVal c) 0)
    else parseDecimalJs cs
  | _ => parseDecimalJs cs

/-- `parseInt(val.trim())` on one comma-separated token: trim, optional
sign, then the recognized numeric prefix; `none` models NaN. -/
def jsParseInt (cs : List Char) : Option Int :=
  match trimChars cs with
  | '-' :: rest => (parseUnsignedJs rest).map (fun v => -(v : Int))
  | '+' :: rest => (parseUnsignedJs rest).map (fun v => (v : Int))
  | rest => (parseUnsignedJs rest).map (fun v => (v : Int))

/-- The pattern parse of `restartSimulation` (src/radial.js line 199):
split on commas, parse each trimmed token, keep only the values 0 and 1
(in particular every NaN is dropped). -/
def parseInitialPattern (cs : List Char) : List Int :=
  (((splitOnComma cs).map (fun t => jsParseInt t)).filter
      (fun v => v == some 0 || v == some 1)).map (fun v => v.getD 0)

/-- The length reconciliation of `restartSimulation` (src/radial.js
lines 202-209): when the filtered pattern's length differs from
`initialCellCount`, rebuild it as
`newPattern[i] = pattern[i % pattern.length] || 0`; `getD _ 0` models
both the `|| 0` substitution for the undefined access of an empty
pattern and the identity on the stored bits. -/
def reconcilePattern (pattern : List Int) (initialCellCount : Nat) : List Int :=
  if pattern.length ≠ initialCellCount then
    (List.range initialCellCount).map
      (fun i => pattern.getD (i % pattern.length) 0)
  else pattern

def restartPattern (cs : List Char) (count : Nat) : List Int :=
  reconcilePattern (parseInitialPattern cs) count

/-- Ring 0 from a pattern, as in `initializeSimulation` (src/radial.js
lines 36-40): truncated to `count` when longer, right-padded with 0
when shorter. -/
def ring0FromPattern (pattern : List Int) (count : Nat) : List Int :=
  pattern.take count ++ List.replicate (count - (pattern.take count).length) 0

/-- C9.  Pattern parsing keeps only the tokens 0 and 1; the reconciled
pattern always has length exactly `initialCellCount`; when the filtered
length differs from `initialCellCount` the reconciliation is cyclic
repetition with 0 for undefined accesses; and ring 0 built from any
pattern (truncate or zero-pad) has length exactly `initialCellCount` -
the whole pipeline is total, so no input ever throws. -/
theorem pattern_parsing_robust (cs : List Char) (count : Nat) :
    (∀ v ∈ parseInitialPattern cs, v = 0 ∨ v = 1) ∧
    (restartPattern cs count).length = count ∧
    ((parseInitialPattern cs).length ≠ count → ∀ i, i < count →
      (restartPattern cs count).getD i 0
        = (parseInitialPattern cs).getD
            (i % (parseInitialPattern cs).length) 0) ∧
    (∀ q : List Int, (ring0FromPattern q count).length = count) := by
  refine ⟨?_, ?_, ?_, ?_⟩
  · intro v hv
    rw [parseInitialPattern] at hv
    rcases List.mem_map.1 hv with ⟨w, hw, rfl⟩
    have hp := (List.mem_filter.1 hw).2
    simp at hp
    rcases hp with hp | hp
    · subst hp
      simp
    · subst hp
      simp
  · by_cases h : (parseInitialPattern cs).length ≠ count
    · rw [restartPattern, reconcilePattern, if_pos h]
      simp
    · rw [restartPattern, reconcilePattern, if_neg h]
      omega
  · intro h i hi
    rw [restartPattern, reconcilePattern, if_pos h]
    have hlen2 : i < ((List.range count).map
        (fun i => (parseInitialPattern cs).getD
          (i % (parseInitialPattern cs).length) 0)).length := by
      simp [hi]
    rw [List.getD_eq_getElem _ _ hlen2, List.getElem_map, List.getElem_range]
  · intro q
    rw [ring0FromPattern]
    simp

/-- Witness for C9: input `"1, 0 ,2,x"` with `initialCellCount = 5`:
the tokens 2 and x are dropped, leaving a 2-element pattern that is
cyclically extended. -/
theorem pattern_parsing_robust_witness :
    ((parseInitialPattern
        ['1', ',', ' ', '0', ' ', ',', '2', ',', 'x']).length ≠ 5 ∧
      0 < 5) ∧
    (restartPattern ['1', ',', ' ', '0', ' ', ',', '2', ',', 'x'] 5).length = 5 ∧
    (restartPattern ['1', ',', ' ', '0', ' ', ',', '2', ',', 'x'] 5).getD 0 0
      = (parseInitialPattern ['1', ',', ' ', '0', ' ', ',', '2', ',', 'x']).getD
          (0 % (parseInitialPattern
            ['1', ',', ' ', '0', ' ', ',', '2', ',', 'x']).length) 0 :=
  ⟨⟨by decide, by decide⟩,
   (pattern_parsing_robust ['1', ',', ' ', '0', ' ', ',', '2', ',', 'x'] 5).2.1,
   (pattern_parsing_robust ['1', ',', ' ', '0', ' ', ',', '2', ',', 'x'] 5).2.2.1
     (by decide) 0 (by decide)⟩

end RadialAutomata
